import Mathlib

set_option autoImplicit false

/-!
Verification of the operation-model builder of fastapi-code-generator.

The definitions below are a shallow embedding of the relevant parts of
src/fastapi_code_generator/parser.py and src/fastapi_code_generator/__main__.py.
Resolved data types coming from the external schema resolver
(datamodel_code_generator) are represented by their rendered type hint and by
their module path, which is the only part of them this code inspects.
-/

namespace FastapiCodeGen

/-- A resolved data-model field (datamodel_code_generator DataModelField as
consumed by parser.py): its rendered type hint and the import required by its
data type (field.data_type.import_). -/
structure FieldB where
  type_hint : String
  data_import : String
  deriving Repr, DecidableEq

/-- The parser Argument.field value: None, a single DataModelField, or a list
of DataModelField (after a union merge). -/
inductive FieldVal where
  | nofield : FieldVal
  | one : FieldB → FieldVal
  | many : List FieldB → FieldVal
  deriving Repr, DecidableEq

/-- parser.py Argument (class Argument at parser.py:91). -/
structure Argument where
  name : String
  type_hint : String
  default : Option String := none
  default_value : Option String := none
  field : FieldVal := FieldVal.nofield
  required : Bool
  deriving Repr, DecidableEq

instance : Inhabited Argument := ⟨{ name := "", type_hint := "", required := false }⟩

/-- Flattening of an Argument.field into a list of fields, as done by the
comprehension in Operation.merge_arguments_with_union (parser.py:165-173). -/
def fieldsOf : FieldVal → List FieldB
  | FieldVal.nofield => []
  | FieldVal.one f => [f]
  | FieldVal.many fs => fs

/-- All member fields of a group of same-named arguments, in member order
(parser.py:165-173). -/
def collectFields (l : List Argument) : List FieldB :=
  match l with
  | [] => []
  | a :: rest => fieldsOf a.field ++ collectFields rest

/-- One step of building the grouped_arguments DefaultDict of
Operation.merge_arguments_with_union (parser.py:155-157): append the argument
to the group of its name, creating the group at the end on first sight.  This
mirrors the insertion-order semantics of a Python dict. -/
def groupInsert (groups : List (String × List Argument)) (a : Argument) :
    List (String × List Argument) :=
  match groups with
  | [] => [(a.name, [a])]
  | (n, l) :: rest =>
    if n = a.name then (n, l ++ [a]) :: rest else (n, l) :: groupInsert rest a

/-- grouped_arguments of Operation.merge_arguments_with_union
(parser.py:155-157): the arguments grouped by name, groups ordered by first
occurrence of each name. -/
def groupByName (args : List Argument) : List (String × List Argument) :=
  args.foldl groupInsert []

/-- The body of the loop of Operation.merge_arguments_with_union
(parser.py:160-175) applied to one group: singleton groups pass through, a
larger group is collapsed to its first member whose field becomes the list of
all member fields. -/
def mergeGroup : List Argument → List Argument
  | [] => []
  | [a] => [a]
  | a :: b :: rest =>
    [{ a with field := FieldVal.many (collectFields (a :: b :: rest)) }]

/-- Operation.merge_arguments_with_union (parser.py:153-176), as a pure
function on the argument list. -/
def merge_arguments_with_union (args : List Argument) : List Argument :=
  (groupByName args).foldr (fun g acc => mergeGroup g.2 ++ acc) []

/-- First-seen deduplication of a list of names, with an accumulator of names
already seen.  Used to state order preservation of the merge pass. -/
def dedupFirstAux (seen : List String) : List String → List String
  | [] => []
  | x :: xs =>
    if x ∈ seen then dedupFirstAux seen xs else x :: dedupFirstAux (x :: seen) xs

/-- The list of names in first-seen order, duplicates removed. -/
def dedupFirst (l : List String) : List String := dedupFirstAux [] l

/-- First group stored under a key, mirroring a Python dict lookup on the
grouped arguments. -/
def findGroup (gs : List (String × List Argument)) (n : String) : List Argument :=
  match gs with
  | [] => []
  | (k, l) :: rest => if k = n then l else findGroup rest n

example :
    merge_arguments_with_union
      [{ name := "x", type_hint := "str", field := FieldVal.one ⟨"str", "m"⟩, required := true },
       { name := "x", type_hint := "int", field := FieldVal.one ⟨"int", "m"⟩, required := true }] =
      [{ name := "x", type_hint := "str",
         field := FieldVal.many [⟨"str", "m"⟩, ⟨"int", "m"⟩], required := true }] := by
  decide

example : dedupFirst ["a", "b", "a", "c", "b"] = ["a", "b", "c"] := by decide

/-- Well-formedness of the grouped-argument structure: keys are distinct,
groups are nonempty, and every member of a group carries the group's name. -/
def GroupsWF (gs : List (String × List Argument)) : Prop :=
  (gs.map Prod.fst).Nodup ∧ ∀ g ∈ gs, g.2 ≠ [] ∧ ∀ a ∈ g.2, a.name = g.1

theorem groupInsert_fst_mem (gs : List (String × List Argument)) (a : Argument)
    (h : a.name ∈ gs.map Prod.fst) :
    (groupInsert gs a).map Prod.fst = gs.map Prod.fst := by
  induction gs with
  | nil => simp at h
  | cons g rest ih =>
    obtain ⟨n, l⟩ := g
    simp only [groupInsert]
    by_cases hn : n = a.name
    · simp [hn]
    · simp only [List.map_cons] at h ⊢
      rcases List.mem_cons.mp h with h1 | h1
      · exact absurd h1.symm hn
      · simp [if_neg hn, ih h1]

theorem groupInsert_fst_not_mem (gs : List (String × List Argument)) (a : Argument)
    (h : a.name ∉ gs.map Prod.fst) :
    (groupInsert gs a).map Prod.fst = gs.map Prod.fst ++ [a.name] := by
  induction gs with
  | nil => simp [groupInsert]
  | cons g rest ih =>
    obtain ⟨n, l⟩ := g
    simp only [List.map_cons, List.mem_cons] at h
    push_neg at h
    simp [groupInsert, if_neg (Ne.symm h.1), ih h.2]

theorem groupInsert_not_mem_eq (gs : List (String × List Argument)) (a : Argument)
    (h : a.name ∉ gs.map Prod.fst) :
    groupInsert gs a = gs ++ [(a.name, [a])] := by
  induction gs with
  | nil => simp [groupInsert]
  | cons g rest ih =>
    obtain ⟨n, l⟩ := g
    simp only [List.map_cons, List.mem_cons] at h
    push_neg at h
    simp [groupInsert, if_neg (Ne.symm h.1), ih h.2]

theorem groupInsert_groups (gs : List (String × List Argument)) (a : Argument)
    (h : ∀ g ∈ gs, g.2 ≠ [] ∧ ∀ x ∈ g.2, x.name = g.1) :
    ∀ g ∈ groupInsert gs a, g.2 ≠ [] ∧ ∀ x ∈ g.2, x.name = g.1 := by
  induction gs with
  | nil =>
    intro g hg
    simp only [groupInsert, List.mem_singleton] at hg
    subst hg; simp
  | cons g0 rest ih =>
    obtain ⟨n, l⟩ := g0
    intro g hg
    simp only [groupInsert] at hg
    by_cases hn : n = a.name
    · rw [if_pos hn] at hg
      rcases List.mem_cons.mp hg with h1 | h1
      · subst h1
        have hg0 := h (n, l) (List.mem_cons_self _ _)
        refine ⟨by simp, ?_⟩
        intro x hx
        rcases List.mem_append.mp hx with hx | hx
        · exact hg0.2 x hx
        · simp only [List.mem_singleton] at hx
          subst hx; simpa using hn.symm
      · exact h g (List.mem_cons_of_mem _ h1)
    · rw [if_neg hn] at hg
      rcases List.mem_cons.mp hg with h1 | h1
      · subst h1; exact h (n, l) (List.mem_cons_self _ _)
      · exact ih (fun g2 hg2 => h g2 (List.mem_cons_of_mem _ hg2)) g h1

theorem groupsWF_groupInsert (gs : List (String × List Argument)) (a : Argument)
    (h : GroupsWF gs) : GroupsWF (groupInsert gs a) := by
  obtain ⟨hnd, hmem⟩ := h
  refine ⟨?_, groupInsert_groups gs a hmem⟩
  by_cases hin : a.name ∈ gs.map Prod.fst
  · rw [groupInsert_fst_mem gs a hin]; exact hnd
  · rw [groupInsert_fst_not_mem gs a hin]
    rw [List.nodup_append]
    exact ⟨hnd, List.nodup_singleton _, by simpa using hin⟩

theorem groupsWF_foldl (args : List Argument) (gs : List (String × List Argument))
    (h : GroupsWF gs) : GroupsWF (args.foldl groupInsert gs) := by
  induction args generalizing gs with
  | nil => exact h
  | cons a rest ih => exact ih _ (groupsWF_groupInsert gs a h)

theorem groupsWF_groupByName (args : List Argument) : GroupsWF (groupByName args) :=
  groupsWF_foldl args [] ⟨List.nodup_nil, by simp⟩

theorem dedupFirstAux_congr (l : List String) (s1 s2 : List String)
    (h : ∀ x, x ∈ s1 ↔ x ∈ s2) : dedupFirstAux s1 l = dedupFirstAux s2 l := by
  induction l generalizing s1 s2 with
  | nil => rfl
  | cons x xs ih =>
    simp only [dedupFirstAux]
    by_cases hx : x ∈ s1
    · rw [if_pos hx, if_pos ((h x).mp hx)]
      exact ih s1 s2 h
    · rw [if_neg hx, if_neg (fun hc => hx ((h x).mpr hc))]
      refine congrArg _ (ih _ _ ?_)
      intro y
      simp only [List.mem_cons]
      exact or_congr Iff.rfl (h y)

theorem foldl_groupInsert_fst (args : List Argument) (gs : List (String × List Argument)) :
    (args.foldl groupInsert gs).map Prod.fst =
      gs.map Prod.fst ++ dedupFirstAux (gs.map Prod.fst) (args.map Argument.name) := by
  induction args generalizing gs with
  | nil => simp [dedupFirstAux]
  | cons a rest ih =>
    simp only [List.foldl_cons, List.map_cons, dedupFirstAux]
    by_cases hin : a.name ∈ gs.map Prod.fst
    · rw [if_pos hin, ih (groupInsert gs a), groupInsert_fst_mem gs a hin]
    · rw [if_neg hin, ih (groupInsert gs a), groupInsert_fst_not_mem gs a hin,
        List.append_assoc]
      refine congrArg _ ?_
      simp only [List.singleton_append, List.cons_append]
      refine congrArg _ (dedupFirstAux_congr _ _ _ ?_)
      intro y
      simp [List.mem_append, List.mem_cons, or_comm]

theorem groupByName_fst (args : List Argument) :
    (groupByName args).map Prod.fst = dedupFirst (args.map Argument.name) := by
  simpa using foldl_groupInsert_fst args []

theorem mergeGroup_names (n : String) (l : List Argument)
    (hne : l ≠ []) (hall : ∀ a ∈ l, a.name = n) :
    (mergeGroup l).map Argument.name = [n] := by
  match l with
  | [] => exact absurd rfl hne
  | [a] => simpa [mergeGroup] using hall a (by simp)
  | a :: b :: rest => simpa [mergeGroup] using hall a (by simp)

theorem merge_names_of_wf (gs : List (String × List Argument))
    (h : ∀ g ∈ gs, g.2 ≠ [] ∧ ∀ a ∈ g.2, a.name = g.1) :
    (gs.foldr (fun g acc => mergeGroup g.2 ++ acc) []).map Argument.name =
      gs.map Prod.fst := by
  induction gs with
  | nil => rfl
  | cons g rest ih =>
    obtain ⟨h1, h2⟩ := h g (List.mem_cons_self _ _)
    rw [List.foldr_cons, List.map_append, List.map_cons,
      mergeGroup_names g.1 g.2 h1 h2,
      ih (fun g2 hg2 => h g2 (List.mem_cons_of_mem _ hg2))]
    rfl

/-- Names of the merged list: first-seen order of the input names. -/
theorem merge_arguments_names (args : List Argument) :
    (merge_arguments_with_union args).map Argument.name =
      dedupFirst (args.map Argument.name) := by
  rw [merge_arguments_with_union,
    merge_names_of_wf (groupByName args) (groupsWF_groupByName args).2,
    groupByName_fst]

theorem dedupFirstAux_not_mem (l seen : List String) (x : String)
    (hx : x ∈ dedupFirstAux seen l) : x ∉ seen := by
  induction l generalizing seen with
  | nil => simp [dedupFirstAux] at hx
  | cons y ys ih =>
    simp only [dedupFirstAux] at hx
    by_cases hy : y ∈ seen
    · rw [if_pos hy] at hx
      exact ih seen hx
    · rw [if_neg hy] at hx
      rcases List.mem_cons.mp hx with h1 | h1
      · subst h1; exact hy
      · intro hc
        exact ih (y :: seen) h1 (List.mem_cons_of_mem _ hc)

theorem dedupFirstAux_nodup (l seen : List String) : (dedupFirstAux seen l).Nodup := by
  induction l generalizing seen with
  | nil => exact List.nodup_nil
  | cons y ys ih =>
    simp only [dedupFirstAux]
    by_cases hy : y ∈ seen
    · rw [if_pos hy]; exact ih seen
    · rw [if_neg hy]
      refine List.nodup_cons.mpr ⟨?_, ih (y :: seen)⟩
      intro hc
      exact dedupFirstAux_not_mem ys (y :: seen) y hc (by simp)

theorem dedupFirst_nodup (l : List String) : (dedupFirst l).Nodup :=
  dedupFirstAux_nodup l []

theorem groupByName_of_nodup (args : List Argument)
    (h : (args.map Argument.name).Nodup) :
    groupByName args = args.map (fun a => (a.name, [a])) := by
  suffices hgen : ∀ (args : List Argument) (gs : List (String × List Argument)),
      (args.map Argument.name).Nodup →
      (∀ a ∈ args, a.name ∉ gs.map Prod.fst) →
      args.foldl groupInsert gs = gs ++ args.map (fun a => (a.name, [a])) by
    simpa using hgen args [] h (by simp)
  intro args
  induction args with
  | nil => simp
  | cons a rest ih =>
    intro gs hnd hdisj
    simp only [List.map_cons, List.nodup_cons] at hnd
    simp only [List.foldl_cons]
    rw [groupInsert_not_mem_eq gs a (hdisj a (by simp))]
    rw [ih (gs ++ [(a.name, [a])]) hnd.2 ?_]
    · simp
    · intro b hb
      rw [List.map_append, List.mem_append]
      push_neg
      constructor
      · exact hdisj b (List.mem_cons_of_mem _ hb)
      · simp only [List.map_cons, List.map_nil, List.mem_singleton]
        intro hc
        exact hnd.1 (hc ▸ List.mem_map_of_mem Argument.name hb)

theorem merge_of_nodup_names (args : List Argument)
    (h : (args.map Argument.name).Nodup) :
    merge_arguments_with_union args = args := by
  rw [merge_arguments_with_union, groupByName_of_nodup args h]
  clear h
  induction args with
  | nil => rfl
  | cons a rest ih =>
    rw [List.map_cons, List.foldr_cons]
    have hm : mergeGroup ((a.name, [a]) : String × List Argument).2 = [a] := rfl
    rw [hm, ih, List.singleton_append]

/-- Claim C1: the Union Merge pass is idempotent and stable: merging twice
equals merging once, and the merged list lists argument names in first-seen
order of the input. -/
theorem C1_merge_idempotent_stable (x : List Argument) :
    merge_arguments_with_union (merge_arguments_with_union x) =
      merge_arguments_with_union x ∧
    (merge_arguments_with_union x).map Argument.name =
      dedupFirst (x.map Argument.name) := by
  refine ⟨?_, merge_arguments_names x⟩
  apply merge_of_nodup_names
  rw [merge_arguments_names x]
  exact dedupFirst_nodup _

theorem findGroup_groupInsert (gs : List (String × List Argument)) (a : Argument)
    (n : String) :
    findGroup (groupInsert gs a) n =
      if n = a.name then findGroup gs n ++ [a] else findGroup gs n := by
  induction gs with
  | nil =>
    by_cases hn : n = a.name
    · subst hn
      simp [groupInsert, findGroup]
    · have hna : ¬(a.name = n) := fun hc => hn hc.symm
      simp [groupInsert, findGroup, hn, hna]
  | cons g0 rest ih =>
    obtain ⟨k, l⟩ := g0
    by_cases hk : k = a.name
    · subst hk
      by_cases hn : n = a.name
      · subst hn
        simp [groupInsert, findGroup]
      · have hna : ¬(a.name = n) := fun hc => hn hc.symm
        simp [groupInsert, findGroup, hn, hna]
    · simp only [groupInsert, if_neg hk, findGroup]
      by_cases hkn : k = n
      · subst hkn
        have hna : ¬(k = a.name) := hk
        simp [findGroup, fun hc : k = a.name => hk hc]
      · simp [findGroup, hkn, ih]

theorem findGroup_groupByName (args : List Argument) (n : String) :
    findGroup (groupByName args) n = args.filter (fun x => x.name = n) := by
  induction args using List.reverseRecOn with
  | nil => rfl
  | append_singleton l a ih =>
    have h1 : groupByName (l ++ [a]) = groupInsert (groupByName l) a := by
      simp only [groupByName, List.foldl_append, List.foldl_cons, List.foldl_nil]
    rw [h1, findGroup_groupInsert, ih, List.filter_append]
    by_cases hn : n = a.name
    · subst hn
      simp [List.filter]
    · rw [if_neg hn]
      have hna : ¬(a.name = n) := fun hc => hn hc.symm
      have ha : (fun x : Argument => decide (x.name = n)) a = false := by
        simp [hna]
      simp [List.filter, ha]

theorem findGroup_mem (gs : List (String × List Argument)) (n : String)
    (h : findGroup gs n ≠ []) : (n, findGroup gs n) ∈ gs := by
  induction gs with
  | nil => exact absurd rfl h
  | cons g0 rest ih =>
    obtain ⟨k, l⟩ := g0
    simp only [findGroup] at h ⊢
    by_cases hk : k = n
    · subst hk
      rw [if_pos rfl]
      exact List.mem_cons_self _ _
    · rw [if_neg hk] at h ⊢
      exact List.mem_cons_of_mem _ (ih h)

theorem mem_foldr_mergeGroup (gs : List (String × List Argument))
    (g : String × List Argument) (x : Argument) (hg : g ∈ gs)
    (hx : x ∈ mergeGroup g.2) :
    x ∈ gs.foldr (fun g2 acc => mergeGroup g2.2 ++ acc) [] := by
  induction gs with
  | nil => simp at hg
  | cons g0 rest ih =>
    rw [List.foldr_cons, List.mem_append]
    rcases List.mem_cons.mp hg with h1 | h1
    · subst h1; exact Or.inl hx
    · exact Or.inr (ih h1)

theorem mem_merge_of_mem_group (args : List Argument) (g : String × List Argument)
    (x : Argument) (hg : g ∈ groupByName args) (hx : x ∈ mergeGroup g.2) :
    x ∈ merge_arguments_with_union args := by
  rw [merge_arguments_with_union]
  exact mem_foldr_mergeGroup (groupByName args) g x hg hx

theorem mem_collectFields (l : List Argument) (a : Argument) (f : FieldB)
    (ha : a ∈ l) (hf : f ∈ fieldsOf a.field) : f ∈ collectFields l := by
  induction l with
  | nil => simp at ha
  | cons b rest ih =>
    rw [collectFields, List.mem_append]
    rcases List.mem_cons.mp ha with h1 | h1
    · subst h1; exact Or.inl hf
    · exact Or.inr (ih h1)

/-- Operation.imports (parser.py:196-204): the imports collected from the
fields of an argument list, in order. -/
def operationImports (args : List Argument) : List String :=
  match args with
  | [] => []
  | a :: rest => (fieldsOf a.field).map FieldB.data_import ++ operationImports rest

theorem operationImports_mem (L : List Argument) (x : Argument) (f : FieldB)
    (hx : x ∈ L) (hf : f ∈ fieldsOf x.field) :
    f.data_import ∈ operationImports L := by
  induction L with
  | nil => simp at hx
  | cons b rest ih =>
    rw [operationImports, List.mem_append]
    rcases List.mem_cons.mp hx with h1 | h1
    · subst h1; exact Or.inl (List.mem_map_of_mem _ hf)
    · exact Or.inr (ih h1)

/-- Claim C4 (amended): grouping is by name in first-occurrence order; the
group of a name is exactly the same-named arguments in input order; singleton
groups pass through unchanged; a larger group is collapsed to its first member
with name, default, default_value and required kept and its field replaced by
the list of all member fields in member order (duplicate member types are
kept, not deduplicated); and every member's import requirement survives into
the merged list. -/
theorem C4_merge_group_shape (args : List Argument) (n : String) :
    findGroup (groupByName args) n = args.filter (fun x => x.name = n) ∧
    (∀ a, findGroup (groupByName args) n = [a] →
      a ∈ merge_arguments_with_union args) ∧
    (∀ a b r, findGroup (groupByName args) n = a :: b :: r →
      { a with field := FieldVal.many (collectFields (a :: b :: r)) } ∈
        merge_arguments_with_union args) ∧
    (∀ a ∈ args, ∀ f ∈ fieldsOf a.field,
      f.data_import ∈ operationImports (merge_arguments_with_union args)) := by
  refine ⟨findGroup_groupByName args n, ?_, ?_, ?_⟩
  · intro a ha
    have hne : findGroup (groupByName args) n ≠ [] := by rw [ha]; simp
    have hmem := findGroup_mem (groupByName args) n hne
    rw [ha] at hmem
    exact mem_merge_of_mem_group args (n, [a]) a hmem (by simp [mergeGroup])
  · intro a b r ha
    have hne : findGroup (groupByName args) n ≠ [] := by rw [ha]; simp
    have hmem := findGroup_mem (groupByName args) n hne
    rw [ha] at hmem
    exact mem_merge_of_mem_group args (n, a :: b :: r) _ hmem (by simp [mergeGroup])
  · intro a ha f hf
    have hgrp : findGroup (groupByName args) a.name =
        args.filter (fun x => x.name = a.name) := findGroup_groupByName args a.name
    have hain : a ∈ args.filter (fun x => x.name = a.name) :=
      List.mem_filter.mpr ⟨ha, by simp⟩
    cases hc : args.filter (fun x => x.name = a.name) with
    | nil =>
      rw [hc] at hain
      simp at hain
    | cons x rest =>
      have hfg : findGroup (groupByName args) a.name = x :: rest := hgrp.trans hc
      have hne : findGroup (groupByName args) a.name ≠ [] := by rw [hfg]; simp
      have hmem := findGroup_mem (groupByName args) a.name hne
      rw [hfg] at hmem
      rw [hc] at hain
      cases rest with
      | nil =>
        simp only [List.mem_singleton] at hain
        subst hain
        have hx : a ∈ merge_arguments_with_union args :=
          mem_merge_of_mem_group args (a.name, [a]) a hmem (by simp [mergeGroup])
        exact operationImports_mem _ a f hx hf
      | cons y r =>
        have hx : { x with field := FieldVal.many (collectFields (x :: y :: r)) } ∈
            merge_arguments_with_union args :=
          mem_merge_of_mem_group args (a.name, x :: y :: r) _ hmem
            (by simp [mergeGroup])
        refine operationImports_mem _ _ f hx ?_
        exact mem_collectFields (x :: y :: r) a f hain hf

/-- Witness for C4_merge_group_shape at a concrete singleton input. -/
theorem C4_merge_group_shape_witness :
    ({ name := "x", type_hint := "str", required := true } : Argument) ∈
      merge_arguments_with_union [{ name := "x", type_hint := "str", required := true }] :=
  (C4_merge_group_shape [{ name := "x", type_hint := "str", required := true }] "x").2.1
    { name := "x", type_hint := "str", required := true } (by decide)

/-- Claim C4 counterexample: two same-named arguments whose fields have the
same type merge into a union with that member type duplicated, so the merged
type is not the union of the distinct member types. -/
theorem C4_union_duplicates_counterexample :
    (merge_arguments_with_union
        [{ name := "x", type_hint := "str",
           field := FieldVal.one ⟨"str", "m"⟩, required := true },
         { name := "x", type_hint := "str",
           field := FieldVal.one ⟨"str", "m"⟩, required := true }]).map
      (fun a => (fieldsOf a.field).map FieldB.type_hint) = [["str", "str"]] ∧
    ¬ List.Nodup ["str", "str"] := by decide

/-!
The in-place effect of Operation.merge_arguments_with_union: the statement
argument.field = fields (parser.py:174) rebinds the field of the object that is
argument_list[0], which is also the object stored at the first position of its
name group inside Operation.arguments_list.  merge_mutated_state computes the
value of arguments_list after one call of the merge pass.
-/

/-- The post-merge value of one element of arguments_list: the first member of
a group of size > 1 has its field replaced by the list of all member fields;
every other element is unchanged. -/
def mutatedElt (args : List Argument) (a : Argument) : Argument :=
  match args.filter (fun x => x.name = a.name) with
  | _ :: _ :: _ =>
    { a with field := FieldVal.many (collectFields (args.filter (fun x => x.name = a.name))) }
  | _ => a

def mutateAux (args : List Argument) (seen : List String) : List Argument → List Argument
  | [] => []
  | a :: rest =>
    (if a.name ∈ seen then a else mutatedElt args a) :: mutateAux args (a.name :: seen) rest

/-- The value of Operation.arguments_list after one evaluation of the
Operation.arguments property (parser.py:185-188), whose call to
merge_arguments_with_union mutates the stored arguments in place. -/
def merge_mutated_state (args : List Argument) : List Argument :=
  mutateAux args [] args

/-- Argument.argument (parser.py:102-116): the rendered type hint comes from
the field when one is present, joining list fields into a Union. -/
def renderTypeHint (a : Argument) : String :=
  match a.field with
  | FieldVal.nofield => a.type_hint
  | FieldVal.one f => f.type_hint
  | FieldVal.many fs =>
    "Union[" ++ String.intercalate ", " (fs.map FieldB.type_hint) ++ "]"

/-- Argument.argument (parser.py:102-116): rendering of one argument. -/
def renderArgument (a : Argument) : String :=
  if a.default.isNone && a.required then a.name ++ ": " ++ renderTypeHint a
  else
    a.name ++ ": " ++ renderTypeHint a ++ " = " ++
      (match a.default with
       | some d => d
       | none => "None")

/-- Operation.arguments (parser.py:185-188): merge, then join the rendered
arguments with a comma. -/
def operation_arguments (arguments_list : List Argument) : String :=
  String.intercalate ", "
    ((merge_arguments_with_union arguments_list).map renderArgument)

/-- Claim C2 refuted on the code: for an Operation whose arguments_list holds
two arguments named x with fields of types str and int, the first evaluation
of the arguments property renders x: Union[str, int] and, because the merge
pass mutated the first stored argument's field in place, the second
evaluation renders x: Union[str, int, int]; the field is also mutated again
with a different effective value.  The spec requires both evaluations to be
identical, so this is a defect of the code. -/
theorem C2_arguments_evaluation_unstable :
    operation_arguments
        [{ name := "x", type_hint := "str",
           field := FieldVal.one ⟨"str", "m"⟩, required := true },
         { name := "x", type_hint := "int",
           field := FieldVal.one ⟨"int", "m"⟩, required := true }] =
      "x: Union[str, int]" ∧
    operation_arguments
        (merge_mutated_state
          [{ name := "x", type_hint := "str",
             field := FieldVal.one ⟨"str", "m"⟩, required := true },
           { name := "x", type_hint := "int",
             field := FieldVal.one ⟨"int", "m"⟩, required := true }]) =
      "x: Union[str, int, int]" ∧
    merge_mutated_state
        (merge_mutated_state
          [{ name := "x", type_hint := "str",
             field := FieldVal.one ⟨"str", "m"⟩, required := true },
           { name := "x", type_hint := "int",
             field := FieldVal.one ⟨"int", "m"⟩, required := true }]) ≠
      merge_mutated_state
        [{ name := "x", type_hint := "str",
           field := FieldVal.one ⟨"str", "m"⟩, required := true },
         { name := "x", type_hint := "int",
           field := FieldVal.one ⟨"int", "m"⟩, required := true }] := by
  refine ⟨by decide, by decide, by decide⟩

/-!
OpenAPIParser.get_argument_list (parser.py:396-426): parameters first, then
the request-body argument, then the forcing loop that rewrites the default of
a required argument to the ellipsis once the running positional_argument flag
is set.
-/

/-- Dummy argument used as the getD fallback in statements about list
positions. -/
def argDummy : Argument := { name := "", type_hint := "", required := false }

/-- The value assigned to positional_argument after processing one argument
(parser.py:416-420). -/
def argPositional (a : Argument) : Bool :=
  a.required || a.default.isSome || a.type_hint.startsWith "Optional["

/-- The body of the forcing loop for one argument (parser.py:414-415): a
required argument with no default receives the ellipsis default when the
positional_argument flag is set. -/
def forceElt (pos : Bool) (a : Argument) : Argument :=
  if pos && a.required && a.default.isNone then { a with default := some "..." } else a

/-- The forcing loop of get_argument_list (parser.py:412-420), parameterized
by the current value of the positional_argument flag. -/
def force_defaults (pos : Bool) : List Argument → List Argument
  | [] => []
  | a :: rest => forceElt pos a :: force_defaults (argPositional (forceElt pos a)) rest

/-- get_argument_list (parser.py:396-426): parameter arguments in order, then
the request-body argument when there is one, run through the forcing loop
with an initially clear flag. -/
def get_argument_list (params : List Argument) (request : Option Argument) :
    List Argument :=
  force_defaults false
    (params ++ (match request with
                | some r => [r]
                | none => []))

theorem force_defaults_length (pos : Bool) (args : List Argument) :
    (force_defaults pos args).length = args.length := by
  induction args generalizing pos with
  | nil => rfl
  | cons a rest ih => simp [force_defaults, ih]

theorem force_defaults_elt (pos : Bool) (args : List Argument) (j : Nat) :
    ((force_defaults pos args).getD j argDummy).required =
      (args.getD j argDummy).required ∧
    ((force_defaults pos args).getD j argDummy).type_hint =
      (args.getD j argDummy).type_hint ∧
    (((force_defaults pos args).getD j argDummy).default =
        (args.getD j argDummy).default ∨
      ((args.getD j argDummy).default = none ∧
        ((force_defaults pos args).getD j argDummy).default = some "...")) := by
  induction args generalizing pos j with
  | nil => simp [force_defaults]
  | cons a rest ih =>
    cases j with
    | zero =>
      simp only [force_defaults, List.getD_cons_zero, forceElt]
      by_cases h : pos && a.required && a.default.isNone
      · rw [if_pos h]
        refine ⟨rfl, rfl, Or.inr ⟨?_, rfl⟩⟩
        have : a.default.isNone = true := by
          rcases Bool.and_eq_true_iff.mp h with ⟨_, h2⟩
          exact h2
        exact Option.isNone_iff_eq_none.mp this
      · rw [if_neg h]
        exact ⟨rfl, rfl, Or.inl rfl⟩
    | succ k =>
      simp only [force_defaults, List.getD_cons_succ]
      exact ih _ k

theorem force_defaults_forced (args : List Argument)
    (hinv : ∀ a ∈ args.dropLast, a.required = false →
      (a.default.isSome || a.type_hint.startsWith "Optional[") = true) :
    ∀ j, j < args.length →
      ((force_defaults true args).getD j argDummy).required = true →
      (args.getD j argDummy).default = none →
      ((force_defaults true args).getD j argDummy).default = some "..." := by
  induction args with
  | nil => intro j hj; simp at hj
  | cons a rest ih =>
    intro j hj hreq hdef
    cases j with
    | zero =>
      simp only [List.getD_cons_zero] at hdef
      have hreq2 : a.required = true := by
        simp only [force_defaults, List.getD_cons_zero, forceElt] at hreq
        by_cases h : (true && a.required && a.default.isNone) = true
        · rcases Bool.and_eq_true_iff.mp h with ⟨h1, _⟩
          exact (Bool.and_eq_true_iff.mp h1).2
        · rw [if_neg h] at hreq
          exact hreq
      simp [force_defaults, forceElt, hreq2, hdef]
    | succ k =>
      cases rest with
      | nil => simp at hj
      | cons b t =>
        have hdl : (a :: b :: t).dropLast = a :: (b :: t).dropLast := rfl
        have hinva := hinv a (by rw [hdl]; exact List.mem_cons_self _ _)
        have hpos : argPositional (forceElt true a) = true := by
          cases har : a.required with
          | true =>
            have : (forceElt true a).required = a.required := by
              unfold forceElt
              by_cases h : (true && a.required && a.default.isNone) = true
              · rw [if_pos h]
              · rw [if_neg h]
            unfold argPositional
            rw [this, har]
            simp
          | false =>
            have hfe : forceElt true a = a := by
              unfold forceElt
              rw [har]
              simp
            rw [hfe]
            unfold argPositional
            rw [har, Bool.false_or]
            exact hinva har
        have hlt : k < (b :: t).length := by
          simpa using Nat.lt_of_succ_lt_succ hj
        have hinvt : ∀ x ∈ (b :: t).dropLast, x.required = false →
            (x.default.isSome || x.type_hint.startsWith "Optional[") = true := by
          intro x hx
          exact hinv x (by rw [hdl]; exact List.mem_cons_of_mem _ hx)
        have hgd : (force_defaults true (a :: b :: t)).getD (k + 1) argDummy =
            (force_defaults true (b :: t)).getD k argDummy := by
          simp only [force_defaults, List.getD_cons_succ, hpos]
        rw [hgd] at hreq ⊢
        simp only [List.getD_cons_succ] at hdef
        exact ih hinvt k hlt hreq hdef

theorem force_defaults_forced_after (pos : Bool) (args : List Argument)
    (hinv : ∀ a ∈ args.dropLast, a.required = false →
      (a.default.isSome || a.type_hint.startsWith "Optional[") = true) :
    ∀ i j, i < j → j < args.length →
      argPositional ((force_defaults pos args).getD i argDummy) = true →
      ((force_defaults pos args).getD j argDummy).required = true →
      (args.getD j argDummy).default = none →
      ((force_defaults pos args).getD j argDummy).default = some "..." := by
  induction args generalizing pos with
  | nil => intro i j _ hj; simp at hj
  | cons a rest ih =>
    intro i j hij hj hipos hreq hdef
    cases rest with
    | nil =>
      simp only [List.length_cons, List.length_nil] at hj
      omega
    | cons b t =>
      have hdl : (a :: b :: t).dropLast = a :: (b :: t).dropLast := rfl
      have hinvt : ∀ x ∈ (b :: t).dropLast, x.required = false →
          (x.default.isSome || x.type_hint.startsWith "Optional[") = true := by
        intro x hx
        exact hinv x (by rw [hdl]; exact List.mem_cons_of_mem _ hx)
      cases j with
      | zero => omega
      | succ k =>
        have hlt : k < (b :: t).length := by
          simpa using Nat.lt_of_succ_lt_succ hj
        cases i with
        | zero =>
          have hipos2 : argPositional (forceElt pos a) = true := by
            simpa [force_defaults, List.getD_cons_zero] using hipos
          have hgd : (force_defaults pos (a :: b :: t)).getD (k + 1) argDummy =
              (force_defaults true (b :: t)).getD k argDummy := by
            simp only [force_defaults, List.getD_cons_succ, hipos2]
          rw [hgd] at hreq ⊢
          simp only [List.getD_cons_succ] at hdef
          exact force_defaults_forced (b :: t) hinvt k hlt hreq hdef
        | succ m =>
          have hgd : ∀ jj, (force_defaults pos (a :: b :: t)).getD (jj + 1) argDummy =
              (force_defaults (argPositional (forceElt pos a)) (b :: t)).getD jj argDummy := by
            intro jj
            simp only [force_defaults, List.getD_cons_succ]
          rw [hgd] at hreq hipos ⊢
          simp only [List.getD_cons_succ] at hdef
          exact ih (argPositional (forceElt pos a)) hinvt m k
            (Nat.lt_of_succ_lt_succ hij) hlt hipos hreq hdef

/-- Claim C3: for argument lists whose non-final arguments satisfy the
documented Argument invariant (an argument that is not required has a default
or an Optional-marked type hint), the forcing loop gives every later required
argument without a default the synthetic ellipsis default whenever an earlier
argument is positional (required, defaulted, or Optional), and consequently no
required-without-default argument follows one with a default. -/
theorem C3_required_after_positional_forced (args : List Argument)
    (hinv : ∀ a ∈ args.dropLast, a.required = false →
      (a.default.isSome || a.type_hint.startsWith "Optional[") = true) :
    (∀ i j, i < j → j < args.length →
      argPositional ((force_defaults false args).getD i argDummy) = true →
      ((force_defaults false args).getD j argDummy).required = true →
      (args.getD j argDummy).default = none →
      ((force_defaults false args).getD j argDummy).default = some "...") ∧
    (∀ i j, i < j → j < args.length →
      ((force_defaults false args).getD i argDummy).default.isSome = true →
      ((force_defaults false args).getD j argDummy).required = true →
      ((force_defaults false args).getD j argDummy).default.isSome = true) := by
  refine ⟨force_defaults_forced_after false args hinv, ?_⟩
  intro i j hij hj hisome hreq
  have hipos : argPositional ((force_defaults false args).getD i argDummy) = true := by
    unfold argPositional
    rw [hisome]
    simp
  cases hcase : (args.getD j argDummy).default with
  | none =>
    have := force_defaults_forced_after false args hinv i j hij hj hipos hreq hcase
    rw [this]
    rfl
  | some d =>
    rcases (force_defaults_elt false args j).2.2 with h | h
    · rw [h, hcase]; rfl
    · rw [h.2]; rfl

/-- Witness for C3_required_after_positional_forced: two required arguments
without defaults; the second is forced to the ellipsis default. -/
theorem C3_witness :
    ((force_defaults false
        [{ name := "a", type_hint := "str", required := true },
         { name := "b", type_hint := "str", required := true }]).getD 1 argDummy).default =
      some "..." :=
  (C3_required_after_positional_forced
      [{ name := "a", type_hint := "str", required := true },
       { name := "b", type_hint := "str", required := true }]
      (by decide)).1
    0 1 (by decide) (by decide) (by decide) (by decide) (by decide)

/-!
Callback handling of OpenAPIParser.parse_operation (parser.py:534-594): the
local counter cb_ctr starts at 0 on every call of parse_operation (one call
per parent operation) and increments once per callback operation that lacks an
operationId, across all callback keys, routes and methods of that parent
operation, in iteration order.  The synthesized id is the f-string
method_key_counter with the counter rendered in decimal.
-/

/-- Decimal digit character, the rendering used by a Python f-string for one
digit of a nonnegative integer. -/
def decDigit (d : Nat) : Char :=
  match d with
  | 0 => '0'
  | 1 => '1'
  | 2 => '2'
  | 3 => '3'
  | 4 => '4'
  | 5 => '5'
  | 6 => '6'
  | 7 => '7'
  | 8 => '8'
  | _ => '9'

/-- Decimal rendering with explicit fuel; fuel n + 1 always suffices because
the argument shrinks by a factor of ten each step. -/
def natToDecAux : Nat → Nat → List Char → List Char
  | 0, _, acc => acc
  | fuel + 1, n, acc =>
    if n < 10 then decDigit n :: acc
    else natToDecAux fuel (n / 10) (decDigit (n % 10) :: acc)

/-- Decimal rendering of a natural number, the embedding of the Python
f-string conversion of the callback counter. -/
def natToDec (n : Nat) : String := String.mk (natToDecAux (n + 1) n [])

/-- One callback operation as visited by the loops of parse_operation: its
method, the callback key it sits under, and its explicit operationId when the
document supplies one. -/
structure CbEntry where
  method : String
  key : String
  opId : Option String
  deriving Repr, DecidableEq

def flattenMethods (k : String) (methods : List (String × Option String)) :
    List CbEntry :=
  methods.map (fun m => { method := m.1, key := k, opId := m.2 })

def flattenRoutes (k : String)
    (routes : List (String × List (String × Option String))) : List CbEntry :=
  match routes with
  | [] => []
  | (_, methods) :: rest => flattenMethods k methods ++ flattenRoutes k rest

/-- The callback operations of one parent operation in the iteration order of
parse_operation (parser.py:557-561): keys, then routes, then methods. -/
def flattenCallbacks :
    List (String × List (String × List (String × Option String))) → List CbEntry
  | [] => []
  | (k, routes) :: rest => flattenRoutes k routes ++ flattenCallbacks rest

/-- The operation ids of the callback operations of one parent operation
(parser.py:568-570): an explicit id is kept, a missing one is synthesized as
method_key_counter from the running cb_ctr, which increments only on
synthesis. -/
def assignIds (ctr : Nat) : List CbEntry → List String
  | [] => []
  | e :: rest =>
    match e.opId with
    | some i => i :: assignIds ctr rest
    | none => (e.method ++ "_" ++ e.key ++ "_" ++ natToDec ctr) :: assignIds (ctr + 1) rest

/-- parse_operation resets cb_ctr to 0 (parser.py:553), so the ids of one
parent operation's callbacks start from counter 0. -/
def parse_operation_callback_ids
    (cbs : List (String × List (String × List (String × Option String)))) :
    List String :=
  assignIds 0 (flattenCallbacks cbs)

/-- The callback operation ids of a whole document: one parse_operation call
per parent operation, each with its own counter starting at 0. -/
def document_callback_ids
    (doc : List (List (String × List (String × List (String × Option String))))) :
    List (List String) :=
  doc.map parse_operation_callback_ids

/-- The ids assigned to exactly the entries that lack an explicit id. -/
def synthesizedIds (ctr : Nat) : List CbEntry → List String
  | [] => []
  | e :: rest =>
    match e.opId with
    | some _ => synthesizedIds ctr rest
    | none => (e.method ++ "_" ++ e.key ++ "_" ++ natToDec ctr) :: synthesizedIds (ctr + 1) rest

/-- Claim C5 counterexample: two parent operations, each with one callback
operation of method post under key cb and no operationId, both receive the
synthesized id post_cb_0, because the counter is reset for every parent
operation rather than shared across the document. -/
theorem C5_per_parent_counter_counterexample :
    document_callback_ids
        [[("cb", [("r", [("post", none)])])],
         [("cb", [("r", [("post", none)])])]] =
      [["post_cb_0"], ["post_cb_0"]] ∧
    ¬ (List.flatten (document_callback_ids
        [[("cb", [("r", [("post", none)])])],
         [("cb", [("r", [("post", none)])])]])).Nodup := by
  refine ⟨by decide, by decide⟩

/-- Value of a digit list read back as a decimal number. -/
def decVal (l : List Char) : Nat :=
  l.foldl (fun a c => a * 10 + (c.toNat - 48)) 0

theorem decDigit_val (d : Nat) (h : d < 10) : (decDigit d).toNat - 48 = d := by
  interval_cases d <;> rfl

theorem decDigit_ne_underscore (d : Nat) : decDigit d ≠ '_' := by
  unfold decDigit
  split <;> decide

theorem natToDecAux_shift (fuel : Nat) :
    ∀ n acc, n < fuel →
      natToDecAux fuel n acc = natToDecAux fuel n [] ++ acc := by
  induction fuel with
  | zero => intro n acc h; omega
  | succ fuel ih =>
    intro n acc h
    by_cases h10 : n < 10
    · simp [natToDecAux, h10]
    · have hdiv : n / 10 < fuel := by omega
      simp only [natToDecAux, if_neg h10]
      rw [ih (n / 10) _ hdiv, ih (n / 10) [decDigit (n % 10)] hdiv,
        List.append_assoc]
      rfl

theorem decVal_concat (l : List Char) (c : Char) :
    decVal (l ++ [c]) = decVal l * 10 + (c.toNat - 48) := by
  simp [decVal, List.foldl_append]

theorem decVal_natToDecAux (fuel : Nat) :
    ∀ n, n < fuel → decVal (natToDecAux fuel n []) = n := by
  induction fuel with
  | zero => intro n h; omega
  | succ fuel ih =>
    intro n h
    by_cases h10 : n < 10
    · simp only [natToDecAux, if_pos h10]
      show decVal [decDigit n] = n
      simp [decVal, decDigit_val n h10]
    · have hdiv : n / 10 < fuel := by omega
      simp only [natToDecAux, if_neg h10]
      rw [natToDecAux_shift fuel (n / 10) [decDigit (n % 10)] hdiv,
        decVal_concat, ih (n / 10) hdiv,
        decDigit_val (n % 10) (Nat.mod_lt n (by omega))]
      omega

theorem natToDec_inj (a b : Nat) (h : natToDec a = natToDec b) : a = b := by
  have hdata : natToDecAux (a + 1) a [] = natToDecAux (b + 1) b [] := by
    have := congrArg String.data h
    simpa [natToDec] using this
  have ha := decVal_natToDecAux (a + 1) a (Nat.lt_succ_self a)
  have hb := decVal_natToDecAux (b + 1) b (Nat.lt_succ_self b)
  rw [← ha, ← hb, hdata]

theorem natToDecAux_no_underscore (fuel : Nat) :
    ∀ n acc, (∀ c ∈ acc, c ≠ '_') →
      ∀ c ∈ natToDecAux fuel n acc, c ≠ '_' := by
  induction fuel with
  | zero => intro n acc hacc; exact hacc
  | succ fuel ih =>
    intro n acc hacc c hc
    by_cases h10 : n < 10
    · simp only [natToDecAux, if_pos h10] at hc
      rcases List.mem_cons.mp hc with h1 | h1
      · subst h1; exact decDigit_ne_underscore n
      · exact hacc c h1
    · simp only [natToDecAux, if_neg h10] at hc
      refine ih (n / 10) (decDigit (n % 10) :: acc) ?_ c hc
      intro c2 hc2
      rcases List.mem_cons.mp hc2 with h1 | h1
      · subst h1; exact decDigit_ne_underscore (n % 10)
      · exact hacc c2 h1

theorem natToDec_no_underscore (n : Nat) :
    ∀ c ∈ (natToDec n).data, c ≠ '_' := by
  intro c hc
  exact natToDecAux_no_underscore (n + 1) n [] (by simp) c hc

theorem takeWhile_all_append (p : Char → Bool) (l1 : List Char) (x : Char)
    (l2 : List Char) (h1 : ∀ c ∈ l1, p c = true) (hx : p x = false) :
    (l1 ++ x :: l2).takeWhile p = l1 := by
  induction l1 with
  | nil => simp [List.takeWhile, hx]
  | cons c rest ih =>
    rw [List.cons_append, List.takeWhile_cons]
    rw [h1 c (List.mem_cons_self _ _)]
    simp only [if_true]
    rw [ih (fun c2 hc2 => h1 c2 (List.mem_cons_of_mem _ hc2))]

theorem last_segment_eq (p1 p2 t1 t2 : List Char)
    (h1 : ∀ c ∈ t1, c ≠ '_') (h2 : ∀ c ∈ t2, c ≠ '_')
    (h : p1 ++ '_' :: t1 = p2 ++ '_' :: t2) : t1 = t2 := by
  have hrev := congrArg (fun l : List Char =>
    (l.reverse.takeWhile (fun c => c ≠ '_')).reverse) h
  simp only [List.reverse_append, List.reverse_cons] at hrev
  have e1 : (t1.reverse ++ ['_'] ++ p1.reverse).takeWhile
      (fun c => decide (c ≠ '_')) = t1.reverse := by
    rw [List.append_assoc, List.singleton_append]
    refine takeWhile_all_append _ _ _ _ ?_ (by simp)
    intro c hc
    simpa using h1 c (List.mem_reverse.mp hc)
  have e2 : (t2.reverse ++ ['_'] ++ p2.reverse).takeWhile
      (fun c => decide (c ≠ '_')) = t2.reverse := by
    rw [List.append_assoc, List.singleton_append]
    refine takeWhile_all_append _ _ _ _ ?_ (by simp)
    intro c hc
    simpa using h2 c (List.mem_reverse.mp hc)
  rw [e1, e2] at hrev
  simpa using hrev

theorem synth_id_counter_inj (m1 k1 m2 k2 : String) (c1 c2 : Nat)
    (h : m1 ++ "_" ++ k1 ++ "_" ++ natToDec c1 = m2 ++ "_" ++ k2 ++ "_" ++ natToDec c2) :
    c1 = c2 := by
  have hdata := congrArg String.data h
  simp only [String.data_append] at hdata
  have hshape : (m1.data ++ ['_'] ++ k1.data) ++ '_' :: (natToDec c1).data =
      (m2.data ++ ['_'] ++ k2.data) ++ '_' :: (natToDec c2).data := by
    simpa [List.append_assoc] using hdata
  have hseg := last_segment_eq _ _ _ _ (natToDec_no_underscore c1)
    (natToDec_no_underscore c2) hshape
  apply natToDec_inj
  exact String.ext hseg

theorem mem_synthesizedIds (ops : List CbEntry) :
    ∀ ctr x, x ∈ synthesizedIds ctr ops →
      ∃ m k c, ctr ≤ c ∧ x = m ++ "_" ++ k ++ "_" ++ natToDec c := by
  induction ops with
  | nil => intro ctr x hx; simp [synthesizedIds] at hx
  | cons e rest ih =>
    intro ctr x hx
    cases hop : e.opId with
    | some i =>
      rw [synthesizedIds, hop] at hx
      exact ih ctr x hx
    | none =>
      rw [synthesizedIds, hop] at hx
      rcases List.mem_cons.mp hx with h1 | h1
      · exact ⟨e.method, e.key, ctr, Nat.le_refl _, h1⟩
      · rcases ih (ctr + 1) x h1 with ⟨m, k, c, hc, hx2⟩
        exact ⟨m, k, c, by omega, hx2⟩

theorem synthesizedIds_nodup (ops : List CbEntry) :
    ∀ ctr, (synthesizedIds ctr ops).Nodup := by
  induction ops with
  | nil => intro ctr; simp [synthesizedIds]
  | cons e rest ih =>
    intro ctr
    cases hop : e.opId with
    | some i => rw [synthesizedIds, hop]; exact ih ctr
    | none =>
      rw [synthesizedIds, hop]
      refine List.nodup_cons.mpr ⟨?_, ih (ctr + 1)⟩
      intro hc
      rcases mem_synthesizedIds rest (ctr + 1) _ hc with ⟨m, k, c, hcle, hx⟩
      have := synth_id_counter_inj e.method e.key m k ctr c hx
      omega

theorem assignIds_synthesized (ops : List CbEntry) :
    ∀ ctr, synthesizedIds ctr ops =
      (ops.zip (assignIds ctr ops)).filterMap
        (fun p => match p.1.opId with
                  | none => some p.2
                  | some _ => none) := by
  induction ops with
  | nil => intro ctr; rfl
  | cons e rest ih =>
    intro ctr
    cases hop : e.opId with
    | some i =>
      rw [synthesizedIds, hop, assignIds, hop, List.zip_cons_cons,
        List.filterMap_cons]
      simp only [hop]
      exact ih ctr
    | none =>
      rw [synthesizedIds, hop, assignIds, hop, List.zip_cons_cons,
        List.filterMap_cons]
      simp only [hop]
      rw [ih (ctr + 1)]

theorem natToDec_zero : natToDec 0 = "0" := rfl

theorem natToDec_one : natToDec 1 = "1" := rfl

/-- Claim C5 (amended): the sequence counter is local to one parse_operation
call, so uniqueness of synthesized callback operation ids holds within a
single parent operation: the ids synthesized for the callback operations of
one parent operation are pairwise distinct, they are exactly the ids assigned
to the entries lacking an explicit operationId, and two routes under one
callback key with no ids receive method_key_0 and method_key_1.  Callback
operations under different parent operations can collide. -/
theorem C5_callback_ids_per_parent (ops : List CbEntry) (ctr : Nat)
    (m k : String) :
    (synthesizedIds ctr ops).Nodup ∧
    synthesizedIds ctr ops =
      (ops.zip (assignIds ctr ops)).filterMap
        (fun p => match p.1.opId with
                  | none => some p.2
                  | some _ => none) ∧
    parse_operation_callback_ids
        [(k, [("r1", [(m, none)]), ("r2", [(m, none)])])] =
      [m ++ "_" ++ k ++ "_" ++ "0", m ++ "_" ++ k ++ "_" ++ "1"] := by
  refine ⟨synthesizedIds_nodup ops ctr, assignIds_synthesized ops ctr, ?_⟩
  show assignIds 0 (flattenCallbacks [(k, [("r1", [(m, none)]), ("r2", [(m, none)])])]) = _
  have hflat : flattenCallbacks [(k, [("r1", [(m, none)]), ("r2", [(m, none)])])] =
      [{ method := m, key := k, opId := none },
       { method := m, key := k, opId := none }] := rfl
  rw [hflat]
  show (m ++ "_" ++ k ++ "_" ++ natToDec 0) ::
      (m ++ "_" ++ k ++ "_" ++ natToDec 1) :: [] = _
  rw [natToDec_zero, natToDec_one]

/-!
OpenAPIParser.parse_responses (parser.py:497-532).  The input models the
dictionary returned by the superclass: status code to content map, each
content value already resolved to a data type, of which only the rendered
type hint is inspected here.
-/

/-- A resolved response data type (only its rendered type hint is used). -/
structure RDataType where
  hint : String
  deriving Repr, DecidableEq

/-- Python dict get on the status-to-contents mapping. -/
def alookup (dts : List (String × List (String × RDataType))) (s : String) :
    Option (List (String × RDataType)) :=
  match dts with
  | [] => none
  | (k, v) :: rest => if k = s then some v else alookup rest s

/-- Ordered-dict assignment (return_types[type_hint] = data_type at
parser.py:514/524): an existing key keeps its position and its value is
replaced, a new key is appended. -/
def dictInsert (d : List (String × RDataType)) (k : String) (v : RDataType) :
    List (String × RDataType) :=
  match d with
  | [] => [(k, v)]
  | (k0, v0) :: rest =>
    if k0 = k then (k0, v) :: rest else (k0, v0) :: dictInsert rest k v

/-- The loop state of parse_responses: the accumulated additional_responses
entries and the ordered return_types dict. -/
structure RespState where
  additional : List (String × String)
  returnKeys : List (String × RDataType)
  deriving Repr, DecidableEq

/-- One iteration of the status loop of parse_responses (parser.py:515-524):
statuses other than 200 with a nonempty content map contribute an
additional_responses entry and a return_types assignment. -/
def respStep (st : RespState) (p : String × List (String × RDataType)) :
    RespState :=
  match p with
  | (_, []) => st
  | (status, c :: _) =>
    if status = "200" then st
    else
      { additional := st.additional ++ [(status, c.2.hint)],
        returnKeys := dictInsert st.returnKeys c.2.hint c.2 }

/-- Result of parse_responses: the primary response hint, the
additional_responses entries, and the keys of return_types in order. -/
structure RespResult where
  response : String
  additional : List (String × String)
  returnHints : List String
  deriving Repr, DecidableEq

/-- The primary response data type (parser.py:504-511): the first content
value of the 200 status when present and nonempty (dict truthiness), else the
no-content type None. -/
def primary200 (dts : List (String × List (String × RDataType))) : RDataType :=
  match alookup dts "200" with
  | some (c :: _) => c.2
  | _ => { hint := "None" }

/-- parse_responses (parser.py:497-532): the 200 status (when present with a
nonempty content map) gives the primary response type, every other status
with content contributes to additional_responses and to the return_types
dict, which starts from the primary type. -/
def parse_responses (dts : List (String × List (String × RDataType))) :
    RespResult :=
  { response := (primary200 dts).hint,
    additional :=
      (dts.foldl respStep
        { additional := [],
          returnKeys := [((primary200 dts).hint, primary200 dts)] }).additional,
    returnHints :=
      (dts.foldl respStep
        { additional := [],
          returnKeys := [((primary200 dts).hint, primary200 dts)] }).returnKeys.map
        Prod.fst }

/-- The final return type of the operation (parser.py:525-531): the single
type when return_types has one entry, otherwise the union of its values. -/
def operation_return_type (r : RespResult) : String :=
  match r.returnHints with
  | [h] => h
  | hs => "Union[" ++ String.intercalate ", " hs ++ "]"

/-- The additional_responses contribution of one status entry. -/
def addOf (p : String × List (String × RDataType)) : Option (String × String) :=
  match p with
  | (_, []) => none
  | (status, c :: _) => if status = "200" then none else some (status, c.2.hint)

theorem foldl_respStep_additional (dts : List (String × List (String × RDataType))) :
    ∀ st0 : RespState,
      (dts.foldl respStep st0).additional = st0.additional ++ dts.filterMap addOf := by
  induction dts with
  | nil => intro st0; simp
  | cons p rest ih =>
    intro st0
    obtain ⟨status, cs⟩ := p
    cases cs with
    | nil =>
      rw [List.foldl_cons, List.filterMap_cons]
      show (rest.foldl respStep st0).additional = _
      rw [ih st0]
      rfl
    | cons c cr =>
      by_cases h200 : status = "200"
      · rw [List.foldl_cons, List.filterMap_cons]
        have hstep : respStep st0 (status, c :: cr) = st0 := by
          simp [respStep, h200]
        have haddof : addOf (status, c :: cr) = none := by
          simp [addOf, h200]
        rw [hstep, haddof, ih st0]
      · rw [List.foldl_cons, List.filterMap_cons]
        have hstep : respStep st0 (status, c :: cr) =
            { additional := st0.additional ++ [(status, c.2.hint)],
              returnKeys := dictInsert st0.returnKeys c.2.hint c.2 } := by
          simp [respStep, h200]
        have haddof : addOf (status, c :: cr) = some (status, c.2.hint) := by
          simp [addOf, h200]
        rw [hstep, haddof, ih]
        simp

theorem dictInsert_fst (d : List (String × RDataType)) (k : String) (v : RDataType) :
    (dictInsert d k v).map Prod.fst =
      if k ∈ d.map Prod.fst then d.map Prod.fst else d.map Prod.fst ++ [k] := by
  induction d with
  | nil => simp [dictInsert]
  | cons e rest ih =>
    obtain ⟨k0, v0⟩ := e
    by_cases hk : k0 = k
    · subst hk
      simp [dictInsert]
    · have hne : ¬(k = k0) := fun hc => hk hc.symm
      simp only [dictInsert, if_neg hk, List.map_cons, ih]
      by_cases hin : k ∈ rest.map Prod.fst
      · rw [if_pos hin, if_pos (List.mem_cons.mpr (Or.inr hin))]
      · rw [if_neg hin, if_neg (fun hc => (List.mem_cons.mp hc).elim hne hin)]
        simp

theorem foldl_respStep_returnKeys (dts : List (String × List (String × RDataType))) :
    ∀ st0 : RespState,
      (dts.foldl respStep st0).returnKeys.map Prod.fst =
        st0.returnKeys.map Prod.fst ++
          dedupFirstAux (st0.returnKeys.map Prod.fst)
            ((dts.filterMap addOf).map Prod.snd) := by
  induction dts with
  | nil => intro st0; simp [dedupFirstAux]
  | cons p rest ih =>
    intro st0
    obtain ⟨status, cs⟩ := p
    cases cs with
    | nil =>
      rw [List.foldl_cons, List.filterMap_cons]
      show (rest.foldl respStep st0).returnKeys.map Prod.fst = _
      rw [ih st0]
      rfl
    | cons c cr =>
      by_cases h200 : status = "200"
      · have hstep : respStep st0 (status, c :: cr) = st0 := by
          simp [respStep, h200]
        have haddof : addOf (status, c :: cr) = none := by
          simp [addOf, h200]
        rw [List.foldl_cons, List.filterMap_cons, hstep, haddof, ih st0]
      · have hstep : respStep st0 (status, c :: cr) =
            { additional := st0.additional ++ [(status, c.2.hint)],
              returnKeys := dictInsert st0.returnKeys c.2.hint c.2 } := by
          simp [respStep, h200]
        have haddof : addOf (status, c :: cr) = some (status, c.2.hint) := by
          simp [addOf, h200]
        rw [List.foldl_cons, List.filterMap_cons, hstep, haddof, ih]
        simp only [List.map_cons, dedupFirstAux, dictInsert_fst]
        by_cases hin : c.2.hint ∈ st0.returnKeys.map Prod.fst
        · rw [if_pos hin, if_pos hin]
        · rw [if_neg hin, if_neg hin, List.append_assoc, List.singleton_append]
          refine congrArg _ (congrArg _ (dedupFirstAux_congr _ _ _ ?_))
          intro y
          simp [List.mem_append, List.mem_cons, or_comm]

/-- Claim C6 (amended): exactly status 200 is the primary response (absent or
empty content gives the no-content type); every other status with a nonempty
content map, and only those, appears in additional_responses keyed by its
status code, and 200 never does; the return type is built from the distinct
response type hints of the primary response and of all additional responses,
in first-seen order — every status contributes to the union, not only 200 and
its synonyms. -/
theorem C6_response_resolution (dts : List (String × List (String × RDataType))) :
    ((parse_responses dts).additional = dts.filterMap addOf ∧
      ∀ x ∈ (parse_responses dts).additional, x.1 ≠ "200") ∧
    (∀ c cr, alookup dts "200" = some (c :: cr) →
      (parse_responses dts).response = c.2.hint) ∧
    ((alookup dts "200" = none ∨ alookup dts "200" = some []) →
      (parse_responses dts).response = "None") ∧
    (parse_responses dts).returnHints =
      dedupFirst ((parse_responses dts).response ::
        (parse_responses dts).additional.map Prod.snd) := by
  have hadd : (parse_responses dts).additional = dts.filterMap addOf := by
    show (dts.foldl respStep _).additional = _
    rw [foldl_respStep_additional]
    rfl
  refine ⟨⟨hadd, ?_⟩, ?_, ?_, ?_⟩
  · intro x hx
    rw [hadd] at hx
    rcases List.mem_filterMap.mp hx with ⟨p, _, hp⟩
    obtain ⟨status, cs⟩ := p
    cases cs with
    | nil => simp [addOf] at hp
    | cons c cr =>
      by_cases h200 : status = "200"
      · simp [addOf, h200] at hp
      · simp only [addOf, if_neg h200, Option.some_inj] at hp
        rw [← hp]
        exact h200
  · intro c cr h
    show (primary200 dts).hint = c.2.hint
    rw [primary200, h]
  · intro h
    show (primary200 dts).hint = "None"
    rcases h with h | h <;> rw [primary200, h]
  · show (dts.foldl respStep _).returnKeys.map Prod.fst = _
    rw [foldl_respStep_returnKeys]
    rw [hadd] at *
    show _ = dedupFirst ((primary200 dts).hint :: (dts.filterMap addOf).map Prod.snd)
    rw [dedupFirst]
    simp only [List.map_cons, List.map_nil, dedupFirstAux, List.singleton_append]
    rw [if_neg (by simp)]

/-- Witness for C6_response_resolution: a single 200 response of type str
gives primary response str. -/
theorem C6_response_resolution_witness :
    (parse_responses [("200", [("application/json", ⟨"str"⟩)])]).response = "str" :=
  (C6_response_resolution [("200", [("application/json", ⟨"str"⟩)])]).2.1
    ("application/json", ⟨"str"⟩) [] (by decide)

/-- Claim C6 counterexample: with a 200 response of type str and a 404
response of type int, the return type is the union of str and int, so the
type int, which occurs only under status 404 and not under 200 or any synonym
of it, contributes to the union, contradicting the claim that only 200 and
its synonyms contribute. -/
theorem C6_additional_in_union_counterexample :
    (parse_responses
        [("200", [("application/json", ⟨"str"⟩)]),
         ("404", [("application/json", ⟨"int"⟩)])]).returnHints = ["str", "int"] ∧
    operation_return_type
        (parse_responses
          [("200", [("application/json", ⟨"str"⟩)]),
           ("404", [("application/json", ⟨"int"⟩)])]) = "Union[str, int]" ∧
    ((alookup
        [("200", [("application/json", (⟨"str"⟩ : RDataType))]),
         ("404", [("application/json", ⟨"int"⟩)])] "200").getD []).map
      (fun c => c.2.hint) = ["str"] := by
  refine ⟨by decide, by decide, by decide⟩

/-!
OpenAPIParser.parse_request_body (parser.py:428-495).  A media entry is a
content type and, when its schema is a JsonSchemaObject or ReferenceObject,
the resolved rendered type hint of that schema; entries without a schema are
skipped by the isinstance check.
-/

/-- Whether the second character list begins with the first. -/
def charsLead : List Char → List Char → Bool
  | [], _ => true
  | _ :: _, [] => false
  | a :: as, b :: bs => a = b && charsLead as bs

/-- Python str.startswith on the character model. -/
def strStartsWith (s p : String) : Bool := charsLead p.data s.data

/-- Python str.endswith on the character model. -/
def strEndsWith (s p : String) : Bool := charsLead p.data.reverse s.data.reverse

/-- The regex ^application/.*json$ (parser.py:48) on newline-free media type
strings: the prefix application/ followed by anything (possibly empty) ending
in json; the length bound keeps prefix and suffix disjoint. -/
def isAppJson (s : String) : Bool :=
  strStartsWith s "application/" && strEndsWith s "json" &&
    decide (16 ≤ s.data.length)

/-- The arguments contributed by one content-type entry of the request body
loop (parser.py:436-494). -/
def handleMedia (required : Bool) (p : String × Option String) : List Argument :=
  match p.2 with
  | none => []
  | some hint =>
    if isAppJson p.1 then
      [{ name := "body", type_hint := hint, required := required }]
    else if p.1 = "application/x-www-form-urlencoded" then
      [{ name := "request", type_hint := "Request", required := true }]
    else if p.1 = "application/octet-stream" then
      [{ name := "request", type_hint := "Request", required := true }]
    else if p.1 = "multipart/form-data" then
      [{ name := "file", type_hint := "UploadFile", required := true }]
    else []

/-- parse_request_body (parser.py:428-495): collect the argument of every
handled content type in declaration order and keep the first if any
(arguments[0] if arguments else None at parser.py:495). -/
def parse_request_body (required : Bool)
    (content : List (String × Option String)) : Option Argument :=
  (content.foldr (fun p acc => handleMedia required p ++ acc) []).head?

/-- Claim C7 counterexample: application/octet-stream is neither a json
content type nor one of the two content types named by the claim, yet it
yields a synthetic required request argument (parser.py:473-483), so a
content type other than the listed ones does yield an argument. -/
theorem C7_octet_stream_counterexample :
    parse_request_body true [("application/octet-stream", some "bytes")] =
      some { name := "request", type_hint := "Request", required := true } ∧
    isAppJson "application/octet-stream" = false ∧
    "application/octet-stream" ≠ "application/x-www-form-urlencoded" ∧
    "application/octet-stream" ≠ "multipart/form-data" := by
  refine ⟨by decide, by decide, by decide, by decide⟩

/-- Claim C7 (amended): json content types yield a structured body argument
named body, required iff the body is required; x-www-form-urlencoded,
multipart/form-data, and also application/octet-stream, each yield one fixed
synthetic required argument; any other content type, and any entry without a
schema, yields nothing; the first handled entry in iteration order wins; and
when no entry is handled the operation gets no body argument. -/
theorem C7_request_body_selection (required : Bool)
    (content rest : List (String × Option String)) (mt hint : String)
    (e : String × Option String) :
    (isAppJson mt = true → handleMedia required (mt, some hint) =
      [{ name := "body", type_hint := hint, required := required }]) ∧
    handleMedia required ("application/x-www-form-urlencoded", some hint) =
      [{ name := "request", type_hint := "Request", required := true }] ∧
    handleMedia required ("application/octet-stream", some hint) =
      [{ name := "request", type_hint := "Request", required := true }] ∧
    handleMedia required ("multipart/form-data", some hint) =
      [{ name := "file", type_hint := "UploadFile", required := true }] ∧
    (isAppJson mt = false → mt ≠ "application/x-www-form-urlencoded" →
      mt ≠ "application/octet-stream" → mt ≠ "multipart/form-data" →
      handleMedia required (mt, some hint) = []) ∧
    handleMedia required (mt, none) = [] ∧
    (handleMedia required e ≠ [] →
      parse_request_body required (e :: rest) = (handleMedia required e).head?) ∧
    (handleMedia required e = [] →
      parse_request_body required (e :: rest) = parse_request_body required rest) ∧
    ((∀ p ∈ content, handleMedia required p = []) →
      parse_request_body required content = none) := by
  have hf1 : isAppJson "application/x-www-form-urlencoded" = false := by decide
  have hf2 : isAppJson "application/octet-stream" = false := by decide
  have hf3 : isAppJson "multipart/form-data" = false := by decide
  have hne1 : "application/octet-stream" ≠ "application/x-www-form-urlencoded" := by
    decide
  have hne2 : "multipart/form-data" ≠ "application/x-www-form-urlencoded" := by
    decide
  have hne3 : "multipart/form-data" ≠ "application/octet-stream" := by decide
  refine ⟨?_, ?_, ?_, ?_, ?_, rfl, ?_, ?_, ?_⟩
  · intro h
    simp [handleMedia, h]
  · simp [handleMedia, hf1]
  · simp [handleMedia, hf2, hne1]
  · simp [handleMedia, hf3, hne2, hne3]
  · intro h1 h2 h3 h4
    simp [handleMedia, h1, h2, h3, h4]
  · intro h
    cases hh : handleMedia required e with
    | nil => exact absurd hh h
    | cons x xs =>
      show ((handleMedia required e ++ _).head? : Option Argument) = _
      rw [hh]
      rfl
  · intro h
    show ((handleMedia required e ++ _).head? : Option Argument) = _
    rw [h]
    rfl
  · intro h
    induction content with
    | nil => rfl
    | cons p ps ih =>
      show ((handleMedia required p ++ _).head? : Option Argument) = none
      rw [h p (List.mem_cons_self _ _), List.nil_append]
      exact ih (fun q hq => h q (List.mem_cons_of_mem _ hq))

/-- Witness for C7_request_body_selection: application/json yields the body
argument, and a lone unknown content type yields none. -/
theorem C7_request_body_selection_witness :
    handleMedia true ("application/json", some "Model") =
      [{ name := "body", type_hint := "Model", required := true }] ∧
    parse_request_body true [("text/plain", some "str")] = none :=
  ⟨(C7_request_body_selection true [] [] "application/json" "Model"
      ("text/plain", some "str")).1 (by decide),
   (C7_request_body_selection true [("text/plain", some "str")] []
      "application/json" "Model" ("text/plain", some "str")).2.2.2.2.2.2.2.2
     (by decide)⟩

/-!
The Tag Partitioner of generate_code (main.py:185-229 of
fastapi_code_generator/__main__.py): TITLE_PATTERN (line 23) rewrites a
stripped tag by replacing each space with an underscore and inserting an
underscore before each uppercase letter that is neither at the start nor
preceded by an uppercase letter or a space, then lowercases; the tag list is
sorted case-insensitively and the router names are the transformed tags,
sorted again lexicographically and zipped with the sorted tags.
-/

/-- Python str.strip whitespace predicate. -/
def isPySpace (c : Char) : Bool :=
  c = ' ' || c = '\t' || c = '\n' || c = '\r' || c = '\x0B' || c = '\x0C'

/-- Python str.strip on the character model. -/
def pyStrip (l : List Char) : List Char :=
  ((l.dropWhile isPySpace).reverse.dropWhile isPySpace).reverse

/-- The lookbehind of TITLE_PATTERN: the position qualifies for an inserted
separator only when there is a preceding character and it is neither
uppercase nor a space. -/
def titleBoundary (prev : Option Char) : Bool :=
  match prev with
  | none => false
  | some p => !(p.isUpper || p = ' ')

/-- One pass of re.sub(TITLE_PATTERN, underscore, s): the pattern matches each
space, and the empty position before an uppercase letter that is not at the
start and whose preceding character is neither uppercase nor a space
(main.py:23). -/
def titleSub (prev : Option Char) : List Char → List Char
  | [] => []
  | c :: rest =>
    (if c = ' ' then ['_']
     else if c.isUpper && titleBoundary prev then ['_', c]
     else [c]) ++ titleSub (some c) rest

/-- The router name of a tag (main.py:194): strip, apply TITLE_PATTERN
substitution, lowercase. -/
def routerName (tag : String) : String :=
  String.mk ((titleSub none (pyStrip tag.data)).map Char.toLower)

/-- Modelled from the spec: the claim's boundary, without the exception for a
preceding space. -/
def titleBoundaryClaim (prev : Option Char) : Bool :=
  match prev with
  | none => false
  | some p => !p.isUpper

/-- Modelled from the spec: the claim's transform, which inserts a separator
before each uppercase letter unless it is preceded by another uppercase
letter or is at the start of the string (no exception for a preceding space),
and a separator at each space, then lowercases. -/
def titleSubClaim (prev : Option Char) : List Char → List Char
  | [] => []
  | c :: rest =>
    (if c = ' ' then ['_']
     else if c.isUpper && titleBoundaryClaim prev then ['_', c]
     else [c]) ++ titleSubClaim (some c) rest

/-- Modelled from the spec: the claim's canonical identifier. -/
def routerNameClaim (tag : String) : String :=
  String.mk ((titleSubClaim none tag.data).map Char.toLower)

/-- Python string less-than: code-point lexicographic order. -/
def charListLt : List Char → List Char → Bool
  | [], [] => false
  | [], _ :: _ => true
  | _ :: _, [] => false
  | a :: as, b :: bs => if a < b then true else if b < a then false else charListLt as bs

def pyStrLt (a b : String) : Bool := charListLt a.data b.data

/-- The ordering used by a stable Python sort: a may stay before b iff
not (b < a). -/
def pyStrLe (a b : String) : Bool := !(pyStrLt b a)

/-- Python str.lower on the character model. -/
def lowerStr (s : String) : String := String.mk (s.data.map Char.toLower)

/-- The key function of sorted(..., key=lambda x: x.lower()) (main.py:192). -/
def tagSortLe (a b : String) : Bool := pyStrLe (lowerStr a) (lowerStr b)

/-- Stable insertion of one element into a sorted list: it goes before the
first element it may precede, hence after earlier-inserted equals. -/
def insortBy (le : String → String → Bool) (x : String) : List String → List String
  | [] => [x]
  | y :: ys => if le x y then x :: y :: ys else y :: insortBy le x ys

/-- Stable sort (insertion sort), the embedding of Python sorted. -/
def sortStable (le : String → String → Bool) (l : List String) : List String :=
  l.foldr (insortBy le) []

/-- sorted(set(all_tags), key=lambda x: x.lower()) (main.py:192); the set is
modelled as first-seen deduplication. -/
def sorted_tags_of (all_tags : List String) : List String :=
  sortStable tagSortLe (dedupFirst all_tags)

/-- routers (main.py:193-195): the transformed tags, sorted again. -/
def routers_of (all_tags : List String) : List String :=
  sortStable pyStrLe ((sorted_tags_of all_tags).map routerName)

/-- Claim C8 counterexample: for the tag Wild Boars the code inserts no
separator before the B (its predecessor is a space), giving wild_boars, while
the claim's rule gives wild__boars; and for the tags a b and a-b the i-th
entry of the re-sorted router list is a-b, which is not the canonical
identifier a_b of the i-th sorted tag a b, so the claimed index-wise
correspondence also fails. -/
theorem C8_router_name_counterexample :
    routerName "Wild Boars" = "wild_boars" ∧
    routerNameClaim "Wild Boars" = "wild__boars" ∧
    routerName "Wild Boars" ≠ routerNameClaim "Wild Boars" ∧
    sorted_tags_of ["a b", "a-b"] = ["a b", "a-b"] ∧
    routers_of ["a b", "a-b"] = ["a-b", "a_b"] ∧
    (routers_of ["a b", "a-b"]).getD 0 "" ≠
      routerName ((sorted_tags_of ["a b", "a-b"]).getD 0 "") := by
  refine ⟨by decide, by decide, by decide, by decide, by decide, by decide⟩

theorem uint32_le_iff (a b : UInt32) : a ≤ b ↔ a.toNat ≤ b.toNat := by
  rw [UInt32.le_def]
  exact BitVec.le_def

theorem uint32_lt_iff (a b : UInt32) : a < b ↔ a.toNat < b.toNat := by
  rw [UInt32.lt_def]
  exact BitVec.lt_def

theorem char_toNat_ofNat (m : Nat) (h : m.isValidChar) :
    (Char.ofNat m).toNat = m := by
  rw [Char.ofNat, dif_pos h]
  rfl

theorem isUpper_iff_toNat (d : Char) :
    d.isUpper = true ↔ (65 ≤ d.toNat ∧ d.toNat ≤ 90) := by
  unfold Char.isUpper
  rw [Bool.and_eq_true_iff]
  constructor
  · rintro ⟨h1, h2⟩
    constructor
    · have := (uint32_le_iff 65 d.val).mp (of_decide_eq_true h1)
      exact this
    · have := (uint32_le_iff d.val 90).mp (of_decide_eq_true h2)
      exact this
  · rintro ⟨h1, h2⟩
    constructor
    · exact decide_eq_true ((uint32_le_iff 65 d.val).mpr h1)
    · exact decide_eq_true ((uint32_le_iff d.val 90).mpr h2)

theorem toLower_not_upper (c : Char) : (Char.toLower c).isUpper = false := by
  unfold Char.toLower
  by_cases h : c.toNat ≥ 65 ∧ c.toNat ≤ 90
  · rw [if_pos h]
    have hv : (c.toNat + 32).isValidChar := Or.inl (by omega)
    refine Bool.eq_false_iff.mpr ?_
    intro hc
    have := (isUpper_iff_toNat _).mp hc
    rw [char_toNat_ofNat _ hv] at this
    omega
  · rw [if_neg h]
    refine Bool.eq_false_iff.mpr ?_
    intro hc
    exact h ((isUpper_iff_toNat c).mp hc)

theorem toLower_ne_space (c : Char) (hc : c ≠ ' ') : Char.toLower c ≠ ' ' := by
  unfold Char.toLower
  by_cases h : c.toNat ≥ 65 ∧ c.toNat ≤ 90
  · rw [if_pos h]
    intro hcontra
    have h2 := congrArg Char.toNat hcontra
    rw [char_toNat_ofNat _ (Or.inl (by omega))] at h2
    have h3 : (' ').toNat = 32 := rfl
    rw [h3] at h2
    omega
  · rw [if_neg h]
    exact hc

theorem titleSub_no_space (l : List Char) :
    ∀ prev, ∀ c ∈ titleSub prev l, c ≠ ' ' := by
  induction l with
  | nil => intro prev c hc; simp [titleSub] at hc
  | cons x rest ih =>
    intro prev c hc
    have hunf : titleSub prev (x :: rest) =
        (if x = ' ' then ['_']
         else if x.isUpper && titleBoundary prev then ['_', x]
         else [x]) ++ titleSub (some x) rest := rfl
    rw [hunf, List.mem_append] at hc
    rcases hc with hc | hc
    · by_cases hx : x = ' '
      · rw [if_pos hx] at hc
        simp only [List.mem_singleton] at hc
        subst hc; decide
      · rw [if_neg hx] at hc
        by_cases hins : (x.isUpper && titleBoundary prev) = true
        · rw [if_pos hins] at hc
          rcases List.mem_cons.mp hc with h1 | h1
          · subst h1; decide
          · simp only [List.mem_singleton] at h1
            subst h1; exact hx
        · rw [if_neg hins] at hc
          simp only [List.mem_singleton] at hc
          subst hc; exact hx
    · exact ih (some x) c hc

/-- Adjacent-pairs ordering check: the list is sorted for the ordering le. -/
def chainLe (le : String → String → Bool) : List String → Bool
  | [] => true
  | [_] => true
  | x :: y :: r => le x y && chainLe le (y :: r)

theorem insortBy_perm (le : String → String → Bool) (x : String) (l : List String) :
    (insortBy le x l).Perm (x :: l) := by
  induction l with
  | nil => exact List.Perm.refl _
  | cons y ys ih =>
    rw [insortBy]
    by_cases h : le x y = true
    · rw [if_pos h]
    · rw [if_neg h]
      exact (List.Perm.cons y ih).trans (List.Perm.swap x y ys)

theorem sortStable_perm (le : String → String → Bool) (l : List String) :
    (sortStable le l).Perm l := by
  induction l with
  | nil => exact List.Perm.refl _
  | cons x xs ih =>
    exact (insortBy_perm le x (sortStable le xs)).trans (List.Perm.cons x ih)

theorem sortStable_of_chain (le : String → String → Bool) (l : List String)
    (h : chainLe le l = true) : sortStable le l = l := by
  induction l with
  | nil => rfl
  | cons x xs ih =>
    cases xs with
    | nil => rfl
    | cons y ys =>
      rcases Bool.and_eq_true_iff.mp h with ⟨h1, h2⟩
      show insortBy le x (sortStable le (y :: ys)) = x :: y :: ys
      rw [ih h2, insortBy, if_pos h1]

theorem chainLe_insortBy (le : String → String → Bool)
    (htot : ∀ a b, le a b = true ∨ le b a = true) (x : String) :
    ∀ l, chainLe le l = true → chainLe le (insortBy le x l) = true := by
  intro l
  induction l with
  | nil => intro _; rfl
  | cons y ys ih =>
    intro h
    rw [insortBy]
    by_cases hxy : le x y = true
    · rw [if_pos hxy]
      show (le x y && chainLe le (y :: ys)) = true
      rw [hxy, h]
      rfl
    · rw [if_neg hxy]
      have hyx : le y x = true := (htot x y).resolve_left hxy
      cases ys with
      | nil =>
        show (le y x && chainLe le [x]) = true
        rw [hyx]
        rfl
      | cons z zs =>
        rcases Bool.and_eq_true_iff.mp h with ⟨hyz, hrest⟩
        have hins := ih hrest
        rw [insortBy]
        by_cases hxz : le x z = true
        · rw [if_pos hxz]
          show (le y x && ((le x z && chainLe le (z :: zs)) : Bool)) = true
          rw [hyx, hxz, hrest]
          rfl
        · rw [if_neg hxz]
          rw [insortBy, if_neg hxz] at hins
          show (le y z && chainLe le (z :: insortBy le x zs)) = true
          rw [hyz, hins]
          rfl

theorem chainLe_sortStable (le : String → String → Bool)
    (htot : ∀ a b, le a b = true ∨ le b a = true) (l : List String) :
    chainLe le (sortStable le l) = true := by
  induction l with
  | nil => rfl
  | cons x xs ih => exact chainLe_insortBy le htot x (sortStable le xs) ih

theorem char_lt_asymm (a b : Char) (h : a < b) : ¬ b < a := by
  have h1 := (uint32_lt_iff a.val b.val).mp h
  intro hc
  have h2 := (uint32_lt_iff b.val a.val).mp hc
  omega

theorem charListLt_asymm : ∀ x y : List Char,
    charListLt x y = true → charListLt y x = false := by
  intro x
  induction x with
  | nil =>
    intro y hy
    cases y with
    | nil => exact absurd hy (by decide)
    | cons b bs => rfl
  | cons a as ih =>
    intro y hy
    cases y with
    | nil => exact absurd hy (by rw [charListLt]; simp)
    | cons b bs =>
      rw [charListLt] at hy ⊢
      by_cases hab : a < b
      · rw [if_neg (char_lt_asymm a b hab), if_pos hab]
      · rw [if_neg hab] at hy
        by_cases hba : b < a
        · rw [if_pos hba] at hy
          exact absurd hy (by simp)
        · rw [if_neg hba] at hy ⊢
          rw [if_neg hab]
          exact ih bs hy

theorem pyStrLe_total (a b : String) :
    pyStrLe a b = true ∨ pyStrLe b a = true := by
  unfold pyStrLe pyStrLt
  cases hba : charListLt b.data a.data with
  | false => exact Or.inl rfl
  | true => exact Or.inr (by rw [charListLt_asymm b.data a.data hba]; rfl)

theorem tagSortLe_total (a b : String) :
    tagSortLe a b = true ∨ tagSortLe b a = true :=
  pyStrLe_total (lowerStr a) (lowerStr b)

/-- Claim C8 (amended): the canonical identifier contains no space and no
uppercase letter; the space itself becomes the separator and no additional
separator is inserted before an uppercase letter preceded by a space; the
emitted tag list is sorted case-insensitively; the router list is the list of
canonical identifiers sorted lexicographically, a permutation of the
canonical identifiers of the sorted tags, and it corresponds index-wise to
the sorted tags exactly when the canonical transform preserves the sorted
order (it need not in general). -/
theorem C8_tag_partitioner (tags : List String) (tag : String) :
    (∀ c ∈ (routerName tag).data, c.isUpper = false ∧ c ≠ ' ') ∧
    chainLe tagSortLe (sorted_tags_of tags) = true ∧
    (routers_of tags).Perm ((sorted_tags_of tags).map routerName) ∧
    chainLe pyStrLe (routers_of tags) = true ∧
    (chainLe pyStrLe ((sorted_tags_of tags).map routerName) = true →
      routers_of tags = (sorted_tags_of tags).map routerName) ∧
    routerName "Wild Boars" = "wild_boars" := by
  refine ⟨?_, ?_, ?_, ?_, ?_, by decide⟩
  · intro c hc
    have hmem : c ∈ (titleSub none (pyStrip tag.data)).map Char.toLower := hc
    rcases List.mem_map.mp hmem with ⟨c0, hc0, hlc⟩
    subst hlc
    exact ⟨toLower_not_upper c0,
      toLower_ne_space c0 (titleSub_no_space (pyStrip tag.data) none c0 hc0)⟩
  · exact chainLe_sortStable tagSortLe tagSortLe_total (dedupFirst tags)
  · exact sortStable_perm pyStrLe _
  · exact chainLe_sortStable pyStrLe pyStrLe_total _
  · intro h
    exact sortStable_of_chain pyStrLe _ h

/-- Witness for C8_tag_partitioner: two plain tags sort and transform in
matching order. -/
theorem C8_tag_partitioner_witness :
    routers_of ["b", "a"] = (sorted_tags_of ["b", "a"]).map routerName :=
  (C8_tag_partitioner ["b", "a"] "X").2.2.2.2.1 (by decide)

/-!
Selective regeneration of per-tag router units (main.py:204-229): when
--specify-tags is given and a previously generated main.py containing
app.include_router exists, the tags variable becomes the requested set; a
router unit is rendered (and later written at routers/router.py) iff its file
does not already exist or its tag is in tags.
-/

/-- The tags variable after the selection block (main.py:205-214): the
requested subset when specify_tags is given, main.py exists and contains
app.include_router; otherwise all sorted tags. -/
def effective_tags (specify mainExists hasIncludeRouter : Bool)
    (sortedTags requested : List String) : List String :=
  if specify && mainExists && hasIncludeRouter then requested else sortedTags

/-- The router/tag pairs whose unit is rendered (main.py:218-229): the zip of
routers and sorted tags, filtered by the exists-or-targeted predicate. -/
def router_write_list (pairs : List (String × String)) (existsAt : String → Bool)
    (tags : List String) : List (String × String) :=
  pairs.filter (fun p => !existsAt p.1 || tags.contains p.2)

/-- The write loop (main.py:238-244) restricted to router units: each selected
pair overwrites its router path with the rendered content of its tag; later
entries win, as in the results dict. -/
def apply_router_writes (render : String → String) (fs : String → Option String) :
    List (String × String) → (String → Option String)
  | [] => fs
  | (r, t) :: rest =>
    apply_router_writes render (fun q => if q = r then some (render t) else fs q) rest

theorem apply_router_writes_frame (render : String → String)
    (sel : List (String × String)) :
    ∀ (fs : String → Option String) (q : String), q ∉ sel.map Prod.fst →
      apply_router_writes render fs sel q = fs q := by
  induction sel with
  | nil => intro fs q _; rfl
  | cons p rest ih =>
    obtain ⟨r, t⟩ := p
    intro fs q hq
    simp only [List.map_cons, List.mem_cons] at hq
    push_neg at hq
    show apply_router_writes render _ rest q = fs q
    rw [ih _ q hq.2]
    rw [if_neg hq.1]

theorem nodup_fst_pair_eq (pairs : List (String × String))
    (hnd : (pairs.map Prod.fst).Nodup) :
    ∀ p ∈ pairs, ∀ q ∈ pairs, p.1 = q.1 → p = q := by
  induction pairs with
  | nil => intro p hp; simp at hp
  | cons x rest ih =>
    simp only [List.map_cons, List.nodup_cons] at hnd
    intro p hp q hq hfst
    rcases List.mem_cons.mp hp with hp1 | hp1 <;>
      rcases List.mem_cons.mp hq with hq1 | hq1
    · rw [hp1, hq1]
    · subst hp1
      exact absurd (hfst ▸ List.mem_map_of_mem Prod.fst hq1) hnd.1
    · subst hq1
      exact absurd (hfst ▸ List.mem_map_of_mem Prod.fst hp1) hnd.1
    · exact ih hnd.2 p hp1 q hq1 hfst

/-- Claim C9: under active selective regeneration (explicit tag subset,
selection condition satisfied) a per-tag router unit is written iff its
artifact does not already exist at its expected path or its tag is in the
requested subset, and every pre-existing artifact of a tag outside the
requested subset, as well as every path not belonging to a router unit, is
left unchanged by the run.  Router paths are assumed pairwise distinct. -/
theorem C9_selective_regeneration
    (pairs : List (String × String)) (existsAt : String → Bool)
    (fs : String → Option String) (render : String → String)
    (specify mainExists hasInc : Bool) (sortedTags requested : List String)
    (hact : specify = true ∧ mainExists = true ∧ hasInc = true)
    (hnd : (pairs.map Prod.fst).Nodup) :
    (∀ p ∈ pairs,
      (p ∈ router_write_list pairs existsAt
          (effective_tags specify mainExists hasInc sortedTags requested) ↔
        (existsAt p.1 = false ∨ p.2 ∈ requested))) ∧
    (∀ p ∈ pairs, existsAt p.1 = true → p.2 ∉ requested →
      apply_router_writes render fs
          (router_write_list pairs existsAt
            (effective_tags specify mainExists hasInc sortedTags requested)) p.1 =
        fs p.1) ∧
    (∀ q, q ∉ pairs.map Prod.fst →
      apply_router_writes render fs
          (router_write_list pairs existsAt
            (effective_tags specify mainExists hasInc sortedTags requested)) q =
        fs q) := by
  obtain ⟨h1, h2, h3⟩ := hact
  subst h1; subst h2; subst h3
  have heff : effective_tags true true true sortedTags requested = requested := rfl
  rw [heff]
  have hmemiff : ∀ p ∈ pairs,
      (p ∈ router_write_list pairs existsAt requested ↔
        (existsAt p.1 = false ∨ p.2 ∈ requested)) := by
    intro p hp
    unfold router_write_list
    rw [List.mem_filter]
    constructor
    · rintro ⟨_, hpred⟩
      rcases Bool.or_eq_true_iff.mp hpred with h | h
      · exact Or.inl (by
          cases he : existsAt p.1 with
          | false => rfl
          | true => rw [he] at h; exact absurd h (by decide))
      · exact Or.inr (List.elem_iff.mp h)
    · intro h
      refine ⟨hp, ?_⟩
      rcases h with h | h
      · rw [h]
        rfl
      · have hcontains : requested.contains p.2 = true := List.elem_iff.mpr h
        rw [hcontains]
        simp
  refine ⟨hmemiff, ?_, ?_⟩
  · intro p hp hex hreq
    have hnotsel : p ∉ router_write_list pairs existsAt requested := by
      intro hc
      rcases (hmemiff p hp).mp hc with h | h
      · rw [hex] at h
        exact absurd h (by decide)
      · exact hreq h
    refine apply_router_writes_frame render _ fs p.1 ?_
    intro hc
    rcases List.mem_map.mp hc with ⟨q, hq, hfq⟩
    have hqin : q ∈ pairs := List.mem_of_mem_filter hq
    have : q = p := nodup_fst_pair_eq pairs hnd q hqin p hp hfq
    subst this
    exact hnotsel hq
  · intro q hq
    refine apply_router_writes_frame render _ fs q ?_
    intro hc
    rcases List.mem_map.mp hc with ⟨x, hx, hfx⟩
    exact hq (hfx ▸ List.mem_map_of_mem Prod.fst (List.mem_of_mem_filter hx))

/-- Witness for C9_selective_regeneration: with tags Wild Boars and Fat Cats,
the Wild Boars unit already on disk and only Fat Cats requested, the
pre-existing Wild Boars artifact is untouched. -/
theorem C9_selective_regeneration_witness :
    apply_router_writes (fun _ => "NEW")
        (fun q => if q = "wild_boars" then some "OLD" else none)
        (router_write_list
          [("fat_cats", "Fat Cats"), ("wild_boars", "Wild Boars")]
          (fun r => decide (r = "wild_boars"))
          (effective_tags true true true ["Fat Cats", "Wild Boars"] ["Fat Cats"]))
        "wild_boars" =
      (fun q => if q = "wild_boars" then some "OLD" else none) "wild_boars" :=
  (C9_selective_regeneration
      [("fat_cats", "Fat Cats"), ("wild_boars", "Wild Boars")]
      (fun r => decide (r = "wild_boars"))
      (fun q => if q = "wild_boars" then some "OLD" else none)
      (fun _ => "NEW") true true true ["Fat Cats", "Wild Boars"] ["Fat Cats"]
      ⟨rfl, rfl, rfl⟩ (by decide)).2.1
    ("wild_boars", "Wild Boars") (by decide) (by decide) (by decide)

/-!
OpenAPIParser.get_parameter_type (parser.py:329-389), for a parameter whose
normalized name equals its wire name (no alias binding); the alias branch
differs only in the rendered default and is not relevant to the required
flag.
-/

/-- ParameterLocation (datamodel_code_generator): where the parameter lives. -/
inductive ParamLoc where
  | path
  | query
  | header
  | cookie
  deriving Repr, DecidableEq

/-- The fields of a resolved ParameterObject consumed by get_parameter_type:
its name, location, declared required flag (absent when omitted), schema
default, and the resolved type hint and import of its schema. -/
structure ParamSpec where
  name : String
  loc : ParamLoc
  required : Option Bool
  schemaHasDefault : Bool
  schemaDefault : Option String
  typeHint : String
  dataImport : String

/-- get_parameter_type (parser.py:363-389): the DataModelField is built with
required = parameters.required or parameters.in_ == ParameterLocation.path
(line 366, an omitted flag being falsy), the default is the schema default
when the schema has one, and the Argument copies the field's required flag
(line 387). -/
def get_parameter_type (p : ParamSpec) : Argument :=
  { name := p.name,
    type_hint := p.typeHint,
    default := if p.schemaHasDefault then p.schemaDefault else none,
    default_value := p.schemaDefault,
    field := FieldVal.one { type_hint := p.typeHint, data_import := p.dataImport },
    required := p.required.getD false || decide (p.loc = ParamLoc.path) }

/-- Claim C10: a path parameter's Argument is required regardless of its
declared required flag; for every other location the declared flag (false
when omitted) decides requiredness. -/
theorem C10_path_parameter_required (p : ParamSpec) :
    (p.loc = ParamLoc.path → (get_parameter_type p).required = true) ∧
    (p.loc ≠ ParamLoc.path →
      (get_parameter_type p).required = p.required.getD false) := by
  constructor
  · intro h
    show (p.required.getD false || decide (p.loc = ParamLoc.path)) = true
    rw [h]
    simp
  · intro h
    show (p.required.getD false || decide (p.loc = ParamLoc.path)) =
      p.required.getD false
    rw [decide_eq_false h, Bool.or_false]

/-- Witness for C10_path_parameter_required: a path parameter declared with
required false is still required; a query parameter with the same flag is
not. -/
theorem C10_path_parameter_required_witness :
    (get_parameter_type
        { name := "id", loc := ParamLoc.path, required := some false,
          schemaHasDefault := false, schemaDefault := none,
          typeHint := "str", dataImport := "m" }).required = true ∧
    (get_parameter_type
        { name := "q", loc := ParamLoc.query, required := some false,
          schemaHasDefault := false, schemaDefault := none,
          typeHint := "str", dataImport := "m" }).required = false :=
  ⟨(C10_path_parameter_required
      { name := "id", loc := ParamLoc.path, required := some false,
        schemaHasDefault := false, schemaDefault := none,
        typeHint := "str", dataImport := "m" }).1 rfl,
   (C10_path_parameter_required
      { name := "q", loc := ParamLoc.query, required := some false,
        schemaHasDefault := false, schemaDefault := none,
        typeHint := "str", dataImport := "m" }).2 (by decide)⟩

end FastapiCodeGen
